import Mathlib

set_option maxRecDepth 20000
set_option maxHeartbeats 2000000

/-!
Verification of the cookie signing / encryption core
(file src/pkg/encryption/cipher.go of the repository).

Modelling conventions for the shallow embedding:

* Go byte slices and Go strings are both modelled as `List Nat`, each element
  being one byte (a character is its ASCII code).  `nil` slices / pointers are
  modelled with `Option` where nil-ness is observable.
* Machine integers (`int`, `int64`, `time.Duration`) are modelled as `Int`;
  where the code can actually wrap around (the `time.Unix` conversion of an
  attacker-controlled timestamp) the wrap-around at 2^63 is modelled
  explicitly through `wrap64`.
* Randomness (`io.ReadFull(rand.Reader, ...)`) is modelled by passing the
  drawn bytes (IV / nonce) as an explicit argument; the claims quantify over
  them.
* The library functions of `encoding/base64`, `crypto/sha256`, `crypto/sha1`,
  `crypto/hmac`, `strconv` and `strings` used by the source are embedded by
  executable Lean functions that follow their documented behaviour
  (standard / URL base64 with or without padding, SHA-256, SHA-1, HMAC,
  decimal integer parsing, splitting on a separator).
-/

namespace OAuth2Proxy

/-! ## Byte-list helpers -/

/-- XOR two byte sequences pointwise (truncating to the shorter one), the
shape of an `XORKeyStream` application. -/
def xorBytes (a b : List Nat) : List Nat :=
  List.zipWith Nat.xor a b

/-- All elements of the list are bytes (< 256). -/
def IsBytes (l : List Nat) : Prop := ∀ b ∈ l, b < 256

instance : DecidablePred IsBytes := fun l =>
  inferInstanceAs (Decidable (∀ b ∈ l, b < 256))

theorem xor_lt_256 {a b : Nat} (ha : a < 256) (hb : b < 256) : a ^^^ b < 256 :=
  Nat.bitwise_lt (n := 8) ha hb

theorem xorBytes_isBytes {a b : List Nat} (ha : IsBytes a) (hb : IsBytes b) :
    IsBytes (xorBytes a b) := by
  intro x hx
  rw [xorBytes, List.mem_iff_get] at hx
  obtain ⟨i, hi⟩ := hx
  subst hi
  simp only [List.get_eq_getElem, List.getElem_zipWith]
  have hia : (i : Nat) < a.length := by
    have := i.isLt; simp [List.length_zipWith] at this; omega
  have hib : (i : Nat) < b.length := by
    have := i.isLt; simp [List.length_zipWith] at this; omega
  exact xor_lt_256 (ha _ (a.getElem_mem hia)) (hb _ (b.getElem_mem hib))

theorem xorBytes_length (a b : List Nat) :
    (xorBytes a b).length = min a.length b.length := by
  simp [xorBytes]

/-- XOR-ing twice with the same key stream gives the data back
(`Nat.xor` is an involution pointwise). -/
theorem xorBytes_xorBytes_cancel :
    ∀ (v ks : List Nat), v.length ≤ ks.length →
      xorBytes (xorBytes v ks) ks = v := by
  intro v
  induction v with
  | nil => intro ks _; simp [xorBytes]
  | cons x xs ih =>
      intro ks hlen
      cases ks with
      | nil => simp at hlen
      | cons k ks =>
          simp only [xorBytes, List.zipWith_cons_cons] at *
          refine congrArg₂ List.cons (Nat.xor_cancel_right _ _) ?_
          exact ih ks (by simpa using hlen)

/-! ## Base64 (Go `encoding/base64`)

The encoder and decoder are parameterised by the alphabet (`enc` maps a
six-bit group to its ASCII code, `dec` is the inverse, `none` on characters
outside the alphabet).  As in Go, the decoder skips carriage returns and
newlines anywhere in the input, and — in the default, non-strict mode used by
the source — does not reject non-zero trailing padding bits. -/

/-- Alphabet of `base64.URLEncoding` / `base64.RawURLEncoding`. -/
def urlEncChar (n : Nat) : Nat :=
  if n < 26 then 65 + n            -- A-Z
  else if n < 52 then 71 + n       -- a-z
  else if n < 62 then n - 4        -- 0-9
  else if n = 62 then 45           -- -
  else 95                          -- _

/-- Inverse of `urlEncChar`. -/
def urlDecChar (c : Nat) : Option Nat :=
  if 65 ≤ c ∧ c ≤ 90 then some (c - 65)
  else if 97 ≤ c ∧ c ≤ 122 then some (c - 71)
  else if 48 ≤ c ∧ c ≤ 57 then some (c + 4)
  else if c = 45 then some 62
  else if c = 95 then some 63
  else none

/-- Alphabet of `base64.StdEncoding`. -/
def stdEncChar (n : Nat) : Nat :=
  if n < 26 then 65 + n
  else if n < 52 then 71 + n
  else if n < 62 then n - 4
  else if n = 62 then 43           -- +
  else 47                          -- /

/-- Inverse of `stdEncChar`. -/
def stdDecChar (c : Nat) : Option Nat :=
  if 65 ≤ c ∧ c ≤ 90 then some (c - 65)
  else if 97 ≤ c ∧ c ≤ 122 then some (c - 71)
  else if 48 ≤ c ∧ c ≤ 57 then some (c + 4)
  else if c = 43 then some 62
  else if c = 47 then some 63
  else none

/-- Padded base64 encoding (`EncodeToString` of a padded encoding):
groups of three bytes become four alphabet characters, a final group of one
or two bytes is completed with `=` (ASCII 61) padding. -/
def b64encode (enc : Nat → Nat) : List Nat → List Nat
  | b1 :: b2 :: b3 :: rest =>
      enc (b1 / 4) :: enc (b1 % 4 * 16 + b2 / 16) ::
      enc (b2 % 16 * 4 + b3 / 64) :: enc (b3 % 64) :: b64encode enc rest
  | [b1, b2] =>
      [enc (b1 / 4), enc (b1 % 4 * 16 + b2 / 16), enc (b2 % 16 * 4), 61]
  | [b1] =>
      [enc (b1 / 4), enc (b1 % 4 * 16), 61, 61]
  | [] => []

/-- Core of the padded base64 decoder (`DecodeString` of a padded encoding),
after newline skipping: the input is consumed four characters at a time; `=`
may only complete the final quantum (in the last one or two positions) and
must be followed by end of input; any other shape — a character outside the
alphabet, a quantum of fewer than four characters, data after padding — is a
`CorruptInputError`, i.e. `none`. -/
def b64decodeCore (dec : Nat → Option Nat) : List Nat → Option (List Nat)
  | [] => some []
  | c1 :: c2 :: c3 :: c4 :: rest =>
      match dec c1, dec c2 with
      | some s1, some s2 =>
          if c3 = 61 then
            if c4 = 61 ∧ rest = [] then some [s1 * 4 + s2 / 16] else none
          else
            match dec c3 with
            | some s3 =>
                if c4 = 61 then
                  if rest = [] then some [s1 * 4 + s2 / 16, s2 % 16 * 16 + s3 / 4]
                  else none
                else
                  match dec c4 with
                  | some s4 =>
                      (b64decodeCore dec rest).map
                        (fun t => (s1 * 4 + s2 / 16) :: (s2 % 16 * 16 + s3 / 4) ::
                                  (s3 % 4 * 64 + s4) :: t)
                  | none => none
            | none => none
      | _, _ => none
  | _ => none

/-- Core of the unpadded (`Raw`) base64 decoder: a final quantum of two or
three characters is allowed without padding, a quantum of one character and
any character outside the alphabet (including `=`) are errors. -/
def b64decodeRawCore (dec : Nat → Option Nat) : List Nat → Option (List Nat)
  | [] => some []
  | [_] => none
  | [c1, c2] =>
      match dec c1, dec c2 with
      | some s1, some s2 => some [s1 * 4 + s2 / 16]
      | _, _ => none
  | [c1, c2, c3] =>
      match dec c1, dec c2, dec c3 with
      | some s1, some s2, some s3 =>
          some [s1 * 4 + s2 / 16, s2 % 16 * 16 + s3 / 4]
      | _, _, _ => none
  | c1 :: c2 :: c3 :: c4 :: rest =>
      match dec c1, dec c2, dec c3, dec c4 with
      | some s1, some s2, some s3, some s4 =>
          (b64decodeRawCore dec rest).map
            (fun t => (s1 * 4 + s2 / 16) :: (s2 % 16 * 16 + s3 / 4) ::
                      (s3 % 4 * 64 + s4) :: t)
      | _, _, _, _ => none

/-- The Go decoder skips `\r` (13) and `\n` (10) anywhere in its input. -/
def stripNewlines (s : List Nat) : List Nat :=
  s.filter (fun c => !(c == 10 || c == 13))

/-- Embedding of `base64.URLEncoding.EncodeToString`. -/
def b64encodeUrl (l : List Nat) : List Nat := b64encode urlEncChar l

/-- Embedding of `base64.URLEncoding.DecodeString` (`none` models a returned error). -/
def b64decodeUrl (s : List Nat) : Option (List Nat) :=
  b64decodeCore urlDecChar (stripNewlines s)

/-- Embedding of `base64.StdEncoding.EncodeToString`. -/
def b64encodeStd (l : List Nat) : List Nat := b64encode stdEncChar l

/-- Embedding of `base64.StdEncoding.DecodeString`. -/
def b64decodeStd (s : List Nat) : Option (List Nat) :=
  b64decodeCore stdDecChar (stripNewlines s)

/-- Embedding of `base64.RawURLEncoding.DecodeString`. -/
def b64decodeRawUrl (s : List Nat) : Option (List Nat) :=
  b64decodeRawCore urlDecChar (stripNewlines s)

/-! ### Base64 round-trip -/

/-- A well-formed base64 alphabet: decoding inverts encoding on six-bit
groups, and no alphabet character collides with the padding character `=`
or with the skipped characters `\n`, `\r`. -/
structure B64Alphabet (enc : Nat → Nat) (dec : Nat → Option Nat) : Prop where
  dec_enc : ∀ n, n < 64 → dec (enc n) = some n
  ne_pad : ∀ n, n < 64 → enc n ≠ 61
  ne_lf : ∀ n, n < 64 → enc n ≠ 10
  ne_cr : ∀ n, n < 64 → enc n ≠ 13

theorem urlAlphabet : B64Alphabet urlEncChar urlDecChar := by
  constructor <;> decide

theorem stdAlphabet : B64Alphabet stdEncChar stdDecChar := by
  constructor <;> decide

theorem mem_b64encode (enc : Nat → Nat) :
    ∀ l, IsBytes l → ∀ c ∈ b64encode enc l, c = 61 ∨ ∃ n, n < 64 ∧ c = enc n := by
  intro l
  induction l using b64encode.induct enc with
  | case1 b1 b2 b3 rest ih =>
      intro hl c hc
      simp only [b64encode, List.mem_cons] at hc
      have h1 : b1 < 256 := hl b1 (by simp)
      have h2 : b2 < 256 := hl b2 (by simp)
      have h3 : b3 < 256 := hl b3 (by simp)
      rcases hc with h | h | h | h | h
      · exact Or.inr ⟨_, by omega, h⟩
      · exact Or.inr ⟨_, by omega, h⟩
      · exact Or.inr ⟨_, by omega, h⟩
      · exact Or.inr ⟨_, by omega, h⟩
      · exact ih (fun b hb => hl b (by simp [hb])) c h
  | case2 b1 b2 =>
      intro hl c hc
      have h1 : b1 < 256 := hl b1 (by simp)
      have h2 : b2 < 256 := hl b2 (by simp)
      simp only [b64encode, List.mem_cons] at hc
      rcases hc with h | h | h | h | h
      · exact Or.inr ⟨_, by omega, h⟩
      · exact Or.inr ⟨_, by omega, h⟩
      · exact Or.inr ⟨_, by omega, h⟩
      · exact Or.inl h
      · simp at h
  | case3 b1 =>
      intro hl c hc
      have h1 : b1 < 256 := hl b1 (by simp)
      simp only [b64encode, List.mem_cons] at hc
      rcases hc with h | h | h | h | h
      · exact Or.inr ⟨_, by omega, h⟩
      · exact Or.inr ⟨_, by omega, h⟩
      · exact Or.inl h
      · exact Or.inl h
      · simp at h
  | case4 =>
      intro _ c hc
      simp [b64encode] at hc

/-- Newline stripping leaves base64-encoded output untouched. -/
theorem stripNewlines_b64encode {enc dec} (ha : B64Alphabet enc dec)
    {l : List Nat} (hl : IsBytes l) :
    stripNewlines (b64encode enc l) = b64encode enc l := by
  rw [stripNewlines, List.filter_eq_self]
  intro c hc
  rcases mem_b64encode enc l hl c hc with h | ⟨n, hn, h⟩
  · subst h; decide
  · subst h
    have h10 := ha.ne_lf n hn
    have h13 := ha.ne_cr n hn
    simp only [Bool.not_eq_eq_eq_not, Bool.not_true, Bool.or_eq_false_iff]
    constructor <;> simp [h10, h13]

theorem b64decodeCore_b64encode {enc dec} (ha : B64Alphabet enc dec) :
    ∀ l, IsBytes l → b64decodeCore dec (b64encode enc l) = some l := by
  intro l
  induction l using b64encode.induct enc with
  | case1 b1 b2 b3 rest ih =>
      intro hl
      have h1 : b1 < 256 := hl b1 (by simp)
      have h2 : b2 < 256 := hl b2 (by simp)
      have h3 : b3 < 256 := hl b3 (by simp)
      have hrest : IsBytes rest := fun b hb => hl b (by simp [hb])
      have d1 : dec (enc (b1 / 4)) = some (b1 / 4) := ha.dec_enc _ (by omega)
      have d2 : dec (enc (b1 % 4 * 16 + b2 / 16)) = some (b1 % 4 * 16 + b2 / 16) :=
        ha.dec_enc _ (by omega)
      have d3 : dec (enc (b2 % 16 * 4 + b3 / 64)) = some (b2 % 16 * 4 + b3 / 64) :=
        ha.dec_enc _ (by omega)
      have d4 : dec (enc (b3 % 64)) = some (b3 % 64) := ha.dec_enc _ (by omega)
      have p3 : enc (b2 % 16 * 4 + b3 / 64) ≠ 61 := ha.ne_pad _ (by omega)
      have p4 : enc (b3 % 64) ≠ 61 := ha.ne_pad _ (by omega)
      simp only [b64encode, b64decodeCore, d1, d2, d3, d4, p3, p4, ih hrest,
        if_false, ite_false, Option.map_some', Option.some_inj, List.cons.injEq,
        and_true, true_and]
      omega
  | case2 b1 b2 =>
      intro hl
      have h1 : b1 < 256 := hl b1 (by simp)
      have h2 : b2 < 256 := hl b2 (by simp)
      have d1 : dec (enc (b1 / 4)) = some (b1 / 4) := ha.dec_enc _ (by omega)
      have d2 : dec (enc (b1 % 4 * 16 + b2 / 16)) = some (b1 % 4 * 16 + b2 / 16) :=
        ha.dec_enc _ (by omega)
      have d3 : dec (enc (b2 % 16 * 4)) = some (b2 % 16 * 4) :=
        ha.dec_enc _ (by omega)
      have p3 : enc (b2 % 16 * 4) ≠ 61 := ha.ne_pad _ (by omega)
      simp only [b64encode, b64decodeCore, d1, d2, d3, p3, if_false, ite_false,
        if_pos rfl, ite_true, Option.some_inj, List.cons.injEq, and_true]
      omega
  | case3 b1 =>
      intro hl
      have h1 : b1 < 256 := hl b1 (by simp)
      have d1 : dec (enc (b1 / 4)) = some (b1 / 4) := ha.dec_enc _ (by omega)
      have d2 : dec (enc (b1 % 4 * 16)) = some (b1 % 4 * 16) :=
        ha.dec_enc _ (by omega)
      simp only [b64encode, b64decodeCore, d1, d2, if_pos rfl, ite_true,
        and_self, Option.some_inj, List.cons.injEq, and_true]
      omega
  | case4 =>
      intro _
      simp [b64encode, b64decodeCore]

/-- Decoding inverts encoding for `base64.URLEncoding` on byte data. -/
theorem b64decodeUrl_b64encodeUrl {l : List Nat} (hl : IsBytes l) :
    b64decodeUrl (b64encodeUrl l) = some l := by
  rw [b64decodeUrl, b64encodeUrl, stripNewlines_b64encode urlAlphabet hl]
  exact b64decodeCore_b64encode urlAlphabet l hl

/-- Decoding inverts encoding for `base64.StdEncoding` on byte data. -/
theorem b64decodeStd_b64encodeStd {l : List Nat} (hl : IsBytes l) :
    b64decodeStd (b64encodeStd l) = some l := by
  rw [b64decodeStd, b64encodeStd, stripNewlines_b64encode stdAlphabet hl]
  exact b64decodeCore_b64encode stdAlphabet l hl

/-! ## `strings.Split` on the byte `|` (124) -/

/-- Embedding of `strings.Split(s, sep)` for a one-byte separator: the fragments between
occurrences of the separator (always at least one fragment). -/
def strSplit (sep : Nat) : List Nat → List (List Nat)
  | [] => [[]]
  | c :: rest =>
      match strSplit sep rest with
      | [] => [[c]]
      | p :: ps => if c = sep then [] :: p :: ps else (c :: p) :: ps

theorem strSplit_ne_nil (sep : Nat) : ∀ s, strSplit sep s ≠ [] := by
  intro s
  cases s with
  | nil => simp [strSplit]
  | cons c rest =>
      rcases h : strSplit sep rest with _ | ⟨p, ps⟩
      · rw [strSplit, h]; simp
      · rw [strSplit, h]
        dsimp only
        split <;> simp

theorem strSplit_no_sep {sep : Nat} :
    ∀ {a : List Nat}, sep ∉ a → strSplit sep a = [a] := by
  intro a
  induction a with
  | nil => intro _; rfl
  | cons c rest ih =>
      intro h
      have hc : c ≠ sep := fun hc => h (by simp [hc])
      have hr : sep ∉ rest := fun hr => h (by simp [hr])
      simp only [strSplit, ih hr]
      simp [hc]

theorem strSplit_append {sep : Nat} :
    ∀ {a : List Nat} (b : List Nat), sep ∉ a →
      strSplit sep (a ++ sep :: b) = a :: strSplit sep b := by
  intro a
  induction a with
  | nil =>
      intro b _
      rcases h : strSplit sep b with _ | ⟨p, ps⟩
      · exact absurd h (strSplit_ne_nil sep b)
      · simp only [List.nil_append]
        rw [strSplit, h]
        simp
  | cons c rest ih =>
      intro b h
      have hc : c ≠ sep := fun hc => h (by simp [hc])
      have hr : sep ∉ rest := fun hr => h (by simp [hr])
      rw [List.cons_append, strSplit, ih b hr]
      simp [hc]

/-! ## `strconv` and `fmt` decimal integers -/

/-- Decimal digits, fuel-recursive so that the kernel can evaluate it (the
fuel only needs to dominate the number of digits; the wrapper passes the
number itself). -/
def natToDecAux : Nat → Nat → List Nat
  | 0, n => [48 + n % 10]
  | fuel + 1, n =>
      if n < 10 then [48 + n]
      else natToDecAux fuel (n / 10) ++ [48 + n % 10]

/-- Decimal digits of a natural number, most significant first
(the `%d` format of a non-negative integer). -/
def natToDec (n : Nat) : List Nat := natToDecAux n n

/-- Embedding of `fmt.Sprintf(\x22%d\x22, n)` for an `int64`-valued time. -/
def intToDec (n : Int) : List Nat :=
  if n < 0 then 45 :: natToDec (-n).toNat else natToDec n.toNat

/-- Fold a digit string strictly: `none` as soon as a non-digit appears. -/
def digitsFold (s : List Nat) : Option Nat :=
  s.foldl
    (fun acc c =>
      match acc with
      | none => none
      | some n => if 48 ≤ c ∧ c ≤ 57 then some (n * 10 + (c - 48)) else none)
    (some 0)

/-- Digit-string value requiring at least one digit. -/
def parseDigitsNE (s : List Nat) : Option Nat :=
  match s with
  | [] => none
  | _ :: _ => digitsFold s

/-- Embedding of `strconv.Atoi`: optional sign, at least one digit, nothing else, and the
value must fit in an `int64` (`strconv.ErrRange` otherwise, modelled as
`none` like any other parse error). -/
def goAtoi (s : List Nat) : Option Int :=
  match s with
  | [] => none
  | c :: rest =>
      if c = 45 then
        match parseDigitsNE rest with
        | some n => if (n : Int) ≤ 2 ^ 63 then some (-(n : Int)) else none
        | none => none
      else if c = 43 then
        match parseDigitsNE rest with
        | some n => if (n : Int) < 2 ^ 63 then some (n : Int) else none
        | none => none
      else
        match digitsFold (c :: rest) with
        | some n => if (n : Int) < 2 ^ 63 then some (n : Int) else none
        | none => none

theorem natToDecAux_digits :
    ∀ fuel n, ∀ c ∈ natToDecAux fuel n, 48 ≤ c ∧ c ≤ 57 := by
  intro fuel
  induction fuel with
  | zero =>
      intro n c hc
      simp only [natToDecAux, List.mem_singleton] at hc
      omega
  | succ fuel ih =>
      intro n c hc
      rw [natToDecAux] at hc
      split at hc
      · next h => simp at hc; omega
      · next h =>
          rw [List.mem_append] at hc
          rcases hc with hc | hc
          · exact ih (n / 10) c hc
          · simp at hc; omega

theorem natToDec_digits : ∀ n, ∀ c ∈ natToDec n, 48 ≤ c ∧ c ≤ 57 :=
  fun n => natToDecAux_digits n n

theorem natToDecAux_ne_nil (fuel n : Nat) : natToDecAux fuel n ≠ [] := by
  cases fuel with
  | zero => simp [natToDecAux]
  | succ fuel =>
      rw [natToDecAux]
      split <;> simp

theorem natToDec_ne_nil (n : Nat) : natToDec n ≠ [] :=
  natToDecAux_ne_nil n n

/-- Subsidiary accumulator form of the digit-fold round trip. -/
theorem digitsFold_aux :
    ∀ fuel n m, n ≤ fuel →
      (natToDecAux fuel n).foldl
        (fun acc c =>
          match acc with
          | none => none
          | some k => if 48 ≤ c ∧ c ≤ 57 then some (k * 10 + (c - 48)) else none)
        (some m)
      = some (m * 10 ^ (natToDecAux fuel n).length + n) := by
  intro fuel
  induction fuel with
  | zero =>
      intro n m hn
      have hn0 : n = 0 := by omega
      subst hn0
      simp only [natToDecAux, List.foldl_cons, List.foldl_nil,
        List.length_cons, List.length_nil, pow_succ, pow_zero, one_mul]
      rw [if_pos (by omega)]
  | succ fuel ih =>
      intro n m hn
      rw [natToDecAux]
      split
      · next h =>
          simp only [List.foldl_cons, List.foldl_nil, List.length_cons,
            List.length_nil, pow_succ, pow_zero, one_mul]
          rw [if_pos (by omega)]
          congr 1
          omega
      · next h =>
          have hdiv : n / 10 < n := Nat.div_lt_self (by omega) (by omega)
          rw [List.foldl_append]
          rw [ih (n / 10) m (by omega)]
          simp only [List.foldl_cons, List.foldl_nil, List.length_append,
            List.length_cons, List.length_nil, pow_succ]
          rw [if_pos (by omega)]
          congr 1
          rw [← Nat.mul_assoc]
          generalize m * 10 ^ (natToDecAux fuel (n / 10)).length = K
          omega

theorem digitsFold_natToDec (n : Nat) : digitsFold (natToDec n) = some n := by
  rw [digitsFold, natToDec, digitsFold_aux n n 0 le_rfl]
  simp

/-- Parsing inverts printing for every `int64` value. -/
theorem goAtoi_intToDec {n : Int} (h₁ : -(2 ^ 63) ≤ n) (h₂ : n < 2 ^ 63) :
    goAtoi (intToDec n) = some n := by
  rw [intToDec]
  split
  · next hneg =>
      rcases hnd : natToDec (-n).toNat with _ | ⟨d, ds⟩
      · exact absurd hnd (natToDec_ne_nil _)
      · have hdf : digitsFold (d :: ds) = some (-n).toNat := by
          rw [← hnd]; exact digitsFold_natToDec _
        have hv : ((-n).toNat : Int) = -n := Int.toNat_of_nonneg (by omega)
        rw [goAtoi, if_pos rfl, parseDigitsNE, hdf]
        dsimp only
        rw [hv, if_pos (by omega)]
        simp
  · next hpos =>
      rcases hnd : natToDec n.toNat with _ | ⟨c, rest⟩
      · exact absurd hnd (natToDec_ne_nil _)
      · have hc : 48 ≤ c ∧ c ≤ 57 :=
          natToDec_digits n.toNat c (by rw [hnd]; simp)
        have hdf : digitsFold (c :: rest) = some n.toNat := by
          rw [← hnd]; exact digitsFold_natToDec _
        have hv : (n.toNat : Int) = n := Int.toNat_of_nonneg (by omega)
        rw [goAtoi, if_neg (by omega), if_neg (by omega), hdf]
        dsimp only
        rw [hv, if_pos (by omega)]

/-! ## SHA-256, SHA-1 and HMAC (`crypto/sha256`, `crypto/sha1`, `crypto/hmac`)

Words are `Nat` values kept below `2 ^ 32` by explicit reduction; byte
sequences are big-endian. -/

/-- Truncated addition of 32-bit words. -/
def add32 (a b : Nat) : Nat := (a + b) % 2 ^ 32

/-- Rotation of a 32-bit word to the right by n bits. -/
def rotr32 (x n : Nat) : Nat := x / 2 ^ n + x % 2 ^ n * 2 ^ (32 - n)

/-- Left rotation of a 32-bit word. -/
def rotl32 (x n : Nat) : Nat := rotr32 x (32 - n)

/-- Complement of a 32-bit word. -/
def bnot32 (x : Nat) : Nat := x ^^^ (2 ^ 32 - 1)

/-- Big-endian bytes of `x`, `n` bytes wide. -/
def natToBytesBE (n x : Nat) : List Nat :=
  (List.range n).map (fun i => x / 2 ^ (8 * (n - 1 - i)) % 256)

/-- Big-endian 32-bit words from bytes (groups of four). -/
def bytesToWords : List Nat → List Nat
  | b0 :: b1 :: b2 :: b3 :: r =>
      (b0 * 2 ^ 24 + b1 * 2 ^ 16 + b2 * 2 ^ 8 + b3) :: bytesToWords r
  | _ => []

/-- Big-endian bytes of a list of 32-bit words. -/
def wordsToBytes : List Nat → List Nat
  | [] => []
  | x :: r =>
      x / 2 ^ 24 % 256 :: x / 2 ^ 16 % 256 :: x / 2 ^ 8 % 256 :: x % 256 ::
      wordsToBytes r

theorem wordsToBytes_isBytes : ∀ w, IsBytes (wordsToBytes w) := by
  intro w
  induction w with
  | nil => intro b hb; simp [wordsToBytes] at hb
  | cons x r ih =>
      intro b hb
      simp only [wordsToBytes, List.mem_cons] at hb
      rcases hb with h | h | h | h | h
      · omega
      · omega
      · omega
      · omega
      · exact ih b h

/-- Merkle–Damgård padding shared by SHA-1 and SHA-256: append `0x80`, zero
bytes up to 56 mod 64, then the bit length as a 64-bit big-endian number. -/
def mdPad (msg : List Nat) : List Nat :=
  msg ++ 128 :: List.replicate ((119 - msg.length % 64) % 64) 0 ++
    natToBytesBE 8 (msg.length * 8)

/-- Split a byte list into 64-byte blocks, fuel-recursive for kernel
evaluation (the wrapper passes the length as fuel, which always
suffices). -/
def chunks64Aux : Nat → List Nat → List (List Nat)
  | _, [] => []
  | 0, _ :: _ => []
  | fuel + 1, l => l.take 64 :: chunks64Aux fuel (l.drop 64)

/-- Split a byte list into 64-byte blocks. -/
def chunks64 (l : List Nat) : List (List Nat) := chunks64Aux l.length l

/-- The SHA-256 round constants. -/
def sha256K : List Nat :=
  [1116352408, 1899447441, 3049323471, 3921009573,
   961987163, 1508970993, 2453635748, 2870763221,
   3624381080, 310598401, 607225278, 1426881987,
   1925078388, 2162078206, 2614888103, 3248222580,
   3835390401, 4022224774, 264347078, 604807628,
   770255983, 1249150122, 1555081692, 1996064986,
   2554220882, 2821834349, 2952996808, 3210313671,
   3336571891, 3584528711, 113926993, 338241895,
   666307205, 773529912, 1294757372, 1396182291,
   1695183700, 1986661051, 2177026350, 2456956037,
   2730485921, 2820302411, 3259730800, 3345764771,
   3516065817, 3600352804, 4094571909, 275423344,
   430227734, 506948616, 659060556, 883997877,
   958139571, 1322822218, 1537002063, 1747873779,
   1955562222, 2024104815, 2227730452, 2361852424,
   2428436474, 2756734187, 3204031479, 3329325298]

/-- The SHA-256 initial hash value. -/
def sha256IV : List Nat :=
  [1779033703, 3144134277, 1013904242, 2773480762,
   1359893119, 2600822924, 528734635, 1541459225]

/-- Message-schedule extension for SHA-256 (`n` further words). -/
def sha256Extend : Nat → List Nat → List Nat
  | 0, w => w
  | n + 1, w =>
      let i := w.length
      let w15 := w.getD (i - 15) 0
      let w2 := w.getD (i - 2) 0
      let s0 := rotr32 w15 7 ^^^ rotr32 w15 18 ^^^ w15 / 2 ^ 3
      let s1 := rotr32 w2 17 ^^^ rotr32 w2 19 ^^^ w2 / 2 ^ 10
      sha256Extend n (w ++ [(w.getD (i - 16) 0 + s0 + w.getD (i - 7) 0 + s1) % 2 ^ 32])

/-- One SHA-256 compression-function application. -/
def sha256Compress (h : List Nat) (block : List Nat) : List Nat :=
  let w := sha256Extend 48 (bytesToWords block)
  let st := (List.zip sha256K w).foldl
    (fun st kw =>
      match st, kw with
      | (a, b, c, d, e, f, g, hh), (k, wi) =>
          let S1 := rotr32 e 6 ^^^ rotr32 e 11 ^^^ rotr32 e 25
          let ch := e &&& f ^^^ bnot32 e &&& g
          let t1 := (hh + S1 + ch + k + wi) % 2 ^ 32
          let S0 := rotr32 a 2 ^^^ rotr32 a 13 ^^^ rotr32 a 22
          let maj := a &&& b ^^^ a &&& c ^^^ b &&& c
          let t2 := (S0 + maj) % 2 ^ 32
          ((t1 + t2) % 2 ^ 32, a, b, c, (d + t1) % 2 ^ 32, e, f, g))
    (h.getD 0 0, h.getD 1 0, h.getD 2 0, h.getD 3 0,
     h.getD 4 0, h.getD 5 0, h.getD 6 0, h.getD 7 0)
  match st with
  | (a, b, c, d, e, f, g, hh) =>
      [add32 (h.getD 0 0) a, add32 (h.getD 1 0) b, add32 (h.getD 2 0) c,
       add32 (h.getD 3 0) d, add32 (h.getD 4 0) e, add32 (h.getD 5 0) f,
       add32 (h.getD 6 0) g, add32 (h.getD 7 0) hh]

/-- SHA-256 of a byte sequence (`sha256.New` + `Write` + `Sum`). -/
def sha256 (msg : List Nat) : List Nat :=
  wordsToBytes ((chunks64 (mdPad msg)).foldl sha256Compress sha256IV)

/-- The SHA-1 initial hash value. -/
def sha1IV : List Nat :=
  [1732584193, 4023233417, 2562383102, 271733878, 3285377520]

/-- Message-schedule extension for SHA-1 (`n` further words). -/
def sha1Extend : Nat → List Nat → List Nat
  | 0, w => w
  | n + 1, w =>
      let i := w.length
      let x := w.getD (i - 3) 0 ^^^ w.getD (i - 8) 0 ^^^
               w.getD (i - 14) 0 ^^^ w.getD (i - 16) 0
      sha1Extend n (w ++ [rotl32 x 1])

/-- One SHA-1 compression-function application. -/
def sha1Compress (h : List Nat) (block : List Nat) : List Nat :=
  let w := sha1Extend 64 (bytesToWords block)
  let st := (List.zip (List.range 80) w).foldl
    (fun st iw =>
      match st, iw with
      | (a, b, c, d, e), (i, wi) =>
          let f :=
            if i < 20 then b &&& c ^^^ bnot32 b &&& d
            else if i < 40 then b ^^^ c ^^^ d
            else if i < 60 then b &&& c ^^^ b &&& d ^^^ c &&& d
            else b ^^^ c ^^^ d
          let k :=
            if i < 20 then 1518500249
            else if i < 40 then 1859775393
            else if i < 60 then 2400959708
            else 3395469782
          let t := (rotl32 a 5 + f + e + k + wi) % 2 ^ 32
          (t, a, rotl32 b 30, c, d))
    (h.getD 0 0, h.getD 1 0, h.getD 2 0, h.getD 3 0, h.getD 4 0)
  match st with
  | (a, b, c, d, e) =>
      [add32 (h.getD 0 0) a, add32 (h.getD 1 0) b, add32 (h.getD 2 0) c,
       add32 (h.getD 3 0) d, add32 (h.getD 4 0) e]

/-- SHA-1 of a byte sequence (`sha1.New` + `Write` + `Sum`). -/
def sha1 (msg : List Nat) : List Nat :=
  wordsToBytes ((chunks64 (mdPad msg)).foldl sha1Compress sha1IV)

theorem sha256_isBytes (msg : List Nat) : IsBytes (sha256 msg) :=
  wordsToBytes_isBytes _

theorem sha1_isBytes (msg : List Nat) : IsBytes (sha1 msg) :=
  wordsToBytes_isBytes _

/-- Embedding of `hmac.New(h, key)` + `Write(msg)` + `Sum(nil)`: HMAC with a 64-byte
block size (that of both SHA-256 and SHA-1). -/
def hmac (h : List Nat → List Nat) (key msg : List Nat) : List Nat :=
  let k0 := if key.length > 64 then h key else key
  let k := k0 ++ List.replicate (64 - k0.length) 0
  h ((k.map (fun b => b ^^^ 92)) ++ h ((k.map (fun b => b ^^^ 54)) ++ msg))

theorem hmac_sha256_isBytes (key msg : List Nat) :
    IsBytes (hmac sha256 key msg) :=
  sha256_isBytes _

theorem hmac_sha1_isBytes (key msg : List Nat) :
    IsBytes (hmac sha1 key msg) :=
  sha1_isBytes _

theorem goAtoi_range {s : List Nat} {n : Int} (h : goAtoi s = some n) :
    -(2 ^ 63) ≤ n ∧ n < 2 ^ 63 := by
  match s with
  | [] => simp [goAtoi] at h
  | c :: rest =>
      rw [goAtoi] at h
      repeat' split at h
      all_goals first
        | (rw [Option.some_inj] at h; omega)
        | simp at h

/-! ## The envelope codec (`SecretBytes`, `Validate`, `SignedValue`,
`cookieSignature`, `checkSignature`, `checkHmac`) -/

/-- Embedding of `strings.TrimRight(s, \x22=\x22)`: remove every trailing `=` (61). -/
def trimRightEq (s : List Nat) : List Nat :=
  (s.reverse.dropWhile (fun c => c = 61)).reverse

/-- Embedding of `SecretBytes`: base64 decode the secret with trailing `=` trimmed; keep
the decoded bytes only when they have a valid AES length (16, 24 or 32),
otherwise fall back to the raw string bytes. -/
def SecretBytes (secret : List Nat) : List Nat :=
  match b64decodeRawUrl (trimRightEq secret) with
  | some b =>
      if b.length = 16 ∨ b.length = 24 ∨ b.length = 32 then b else secret
  | none => secret

/-- Embedding of `cookieSignature(signer, seed, key, encodedValue, timeStr)`: HMAC keyed
by the seed over the concatenation of the remaining arguments, base64url
encoded.  The source takes the arguments variadically; the embedding fixes
the arity actually used (key, value, timestamp). -/
def cookieSignature (signer : List Nat → List Nat)
    (seed key value ts : List Nat) : List Nat :=
  b64encodeUrl (hmac signer seed (key ++ value ++ ts))

/-- Embedding of `checkHmac`: base64url-decode both MACs; a decode failure on either side
is unequal; otherwise `hmac.Equal`, i.e. equality of the decoded bytes
(the constant-time execution of the comparison has no extensional content).
-/
def checkHmac (input expected : List Nat) : Bool :=
  match b64decodeUrl input, b64decodeUrl expected with
  | some a, some b => a = b
  | _, _ => false

/-- Embedding of `checkSignature`: accept if the candidate matches the SHA-256 signature,
or failing that the legacy SHA-1 signature over the same arguments. -/
def checkSignature (signature seed key value ts : List Nat) : Bool :=
  checkHmac signature (cookieSignature sha256 seed key value ts) ||
  checkHmac signature (cookieSignature sha1 seed key value ts)

/-- The seconds between year 1 (the zero `time.Time`) and the Unix epoch:
`unixToInternal` in package `time`.  `time.Unix(ts, 0)` stores
`ts + unixToInternal` in an `int64` field, so the conversion of an
attacker-supplied `ts` can wrap around. -/
def unixToInternal : Int := 62135596800

/-- Two-complement wrap-around of an `int64` field. -/
def wrap64 (x : Int) : Int := (x + 2 ^ 63) % 2 ^ 64 - 2 ^ 63

theorem wrap64_eq_self {x : Int} (h₁ : -(2 ^ 63) ≤ x) (h₂ : x < 2 ^ 63) :
    wrap64 x = x := by
  rw [wrap64]
  have : (x + 2 ^ 63) % 2 ^ 64 = x + 2 ^ 63 :=
    Int.emod_eq_of_lt (by omega) (by omega)
  omega

/-- The outputs of `Validate`: the named return values
`(value []byte, t time.Time, ok bool)`.  `value = none` models the nil
slice; `t = none` models the zero `time.Time` and `t = some ts` models
`time.Unix(ts, 0)` (the two are distinguishable in Go: `time.Unix` sets a
location, the zero value has none). -/
structure ValidateResult where
  value : Option (List Nat)
  t : Option Int
  ok : Bool
  deriving Repr, DecidableEq

/-- Embedding of `Validate(cookie, seed, expiration)`, with the cookie passed as its
name and value and with `time.Now()` passed explicitly as `now` (Unix
seconds; the claims only involve whole-second times, and both calls of
`time.Now()` in the source are modelled as the same instant).  The window
comparison happens on the internal seconds field of `time.Time`, hence
through `wrap64 (ts + unixToInternal)` for the attacker-controlled
timestamp; `now` ranges over instants representable by `time.Now()`, whose
field arithmetic with realistic expirations cannot wrap, so it is kept
exact.  Split the value on `|`; require exactly three parts; check the
signature; parse the timestamp; check the window
`(now - expiration, now + 5 minutes)`; base64-decode the value. -/
def Validate (cookieValue name seed : List Nat) (expiration now : Int) :
    ValidateResult :=
  match strSplit 124 cookieValue with
  | [v, tsStr, sig] =>
      if checkSignature sig seed name v tsStr then
        match goAtoi tsStr with
        | some ts =>
            let tSec := wrap64 (ts + unixToInternal)
            if now + unixToInternal - expiration < tSec ∧
               tSec < now + unixToInternal + 300 then
              match b64decodeUrl v with
              | some raw => ⟨some raw, some ts, true⟩
              | none => ⟨none, some ts, false⟩
            else ⟨none, some ts, false⟩
        | none => ⟨none, none, false⟩
      else ⟨none, none, false⟩
  | _ => ⟨none, none, false⟩

/-- Embedding of `SignedValue(seed, key, value, now)`: base64url-encode the value,
format the Unix seconds of `now` in decimal, sign with SHA-256, and join
the three fields with `|` (124). -/
def SignedValue (seed key value : List Nat) (now : Int) : List Nat :=
  let encodedValue := b64encodeUrl value
  let timeStr := intToDec now
  let sig := cookieSignature sha256 seed key encodedValue timeStr
  encodedValue ++ 124 :: timeStr ++ 124 :: sig

/-! ## The cipher abstraction

A `cipher.Block` produced by `aes.NewCipher(secret)` is modelled as its
encryption function `E : List Nat → List Nat` on 16-byte blocks (valid keys
of 16, 24 or 32 bytes yield such a block; the claims quantify over `E`).
The block cipher is only ever used in the forward direction by CFB and GCM.
-/

/-- The Go error values produced by the cipher layer. -/
inductive GoErr where
  /-- CFB decrypt: encrypted value shorter than the AES block size. -/
  | cfbTooShort (got : Nat)
  /-- Base64Cipher decrypt: failed to base64 decode value. -/
  | b64Decode
  /-- GCM open failed (authentication failure) or its input-size checks. -/
  | gcmOpen
  /-- GCM seal refused an over-long plaintext. -/
  | gcmMessageTooLarge
  deriving Repr, DecidableEq

/-- Outcome of an `Encrypt`/`Decrypt` call: a returned byte slice, a
returned Go error, or a runtime panic. -/
inductive CipherResult where
  | ok (bs : List Nat)
  | err (e : GoErr)
  | panics
  deriving Repr, DecidableEq

/-- Go slicing `l[i:j]` on a slice whose capacity equals its length:
`none` models the slice-bounds-out-of-range panic. -/
def goSlice (l : List Nat) (i j : Nat) : Option (List Nat) :=
  if i ≤ j ∧ j ≤ l.length then some ((l.take j).drop i) else none

/-- Outcome of an `EncryptInto`/`DecryptInto` call: the returned error (if
any) together with the final contents of the string pointer.  The pointer
is `none` when nil, otherwise `some` of the string bytes. -/
inductive IntoResult where
  | ret (e : Option GoErr) (s : Option (List Nat))
  | panics
  deriving Repr, DecidableEq

/-- The shared helper `into(f, s)`: a no-op on a nil pointer or empty
string; otherwise apply the codec and, only on success, store the result
back. -/
def into (f : List Nat → CipherResult) (s : Option (List Nat)) : IntoResult :=
  match s with
  | none => .ret none none
  | some v =>
      if v = [] then .ret none (some v)
      else
        match f v with
        | .ok d => .ret none (some d)
        | .err e => .ret (some e) (some v)
        | .panics => .panics

namespace DefaultCipher

/-- Embedding of `DefaultCipher.Encrypt`: the identity. -/
def Encrypt (value : List Nat) : CipherResult := .ok value

/-- Embedding of `DefaultCipher.Decrypt`: the identity. -/
def Decrypt (ciphertext : List Nat) : CipherResult := .ok ciphertext

/-- Embedding of `DefaultCipher.EncryptInto`. -/
def EncryptInto (s : Option (List Nat)) : IntoResult := into Encrypt s

/-- Embedding of `DefaultCipher.DecryptInto`. -/
def DecryptInto (s : Option (List Nat)) : IntoResult := into Decrypt s

end DefaultCipher

namespace Base64Cipher

/-- Embedding of `Base64Cipher.Encrypt`: delegate to the wrapped cipher, then base64
(standard alphabet) encode. -/
def Encrypt (inner : List Nat → CipherResult) (value : List Nat) :
    CipherResult :=
  match inner value with
  | .ok encrypted => .ok (b64encodeStd encrypted)
  | r => r

/-- Embedding of `Base64Cipher.Decrypt`: base64 (standard alphabet) decode, then
delegate to the wrapped cipher. -/
def Decrypt (innerDec : List Nat → CipherResult) (ciphertext : List Nat) :
    CipherResult :=
  match b64decodeStd ciphertext with
  | none => .err .b64Decode
  | some encrypted => innerDec encrypted

/-- Embedding of `Base64Cipher.EncryptInto`, the method promoted from the embedded
`DefaultCipher` field: its receiver is that field, so `c.Encrypt` inside it
is `DefaultCipher.Encrypt` (Go method promotion performs no virtual
dispatch), independent of the wrapped cipher. -/
def EncryptInto (s : Option (List Nat)) : IntoResult :=
  into DefaultCipher.Encrypt s

/-- Embedding of `Base64Cipher.DecryptInto`, promoted from the embedded `DefaultCipher`
(see `Base64Cipher.EncryptInto`). -/
def DecryptInto (s : Option (List Nat)) : IntoResult :=
  into DefaultCipher.Decrypt s

end Base64Cipher

namespace CFBCipher

/-- Fuel-recursive core of `cfbEnc` (the wrapper passes the length as fuel,
which always suffices). -/
def cfbEncAux (E : List Nat → List Nat) : Nat → List Nat → List Nat → List Nat
  | _, _, [] => []
  | 0, _, _ :: _ => []
  | fuel + 1, prev, p =>
      xorBytes (p.take 16) (E prev) ++
      cfbEncAux E fuel (xorBytes (p.take 16) (E prev)) (p.drop 16)

/-- Full-block CFB keystream chaining (`cipher.NewCFBEncrypter` +
`XORKeyStream`): each ciphertext block is the plaintext block XOR the
encryption of the previous ciphertext block (the IV for the first). -/
def cfbEnc (E : List Nat → List Nat) (prev p : List Nat) : List Nat :=
  cfbEncAux E p.length prev p

/-- Fuel-recursive core of `cfbDec`. -/
def cfbDecAux (E : List Nat → List Nat) : Nat → List Nat → List Nat → List Nat
  | _, _, [] => []
  | 0, _, _ :: _ => []
  | fuel + 1, prev, ct =>
      xorBytes (ct.take 16) (E prev) ++
      cfbDecAux E fuel (ct.take 16) (ct.drop 16)

/-- CFB decryption: regenerate the keystream from the ciphertext blocks. -/
def cfbDec (E : List Nat → List Nat) (prev ct : List Nat) : List Nat :=
  cfbDecAux E ct.length prev ct

theorem cfbEncAux_fuelIrrel {E : List Nat → List Nat} :
    ∀ f1 p prev f2, p.length ≤ f1 → p.length ≤ f2 →
      cfbEncAux E f1 prev p = cfbEncAux E f2 prev p := by
  intro f1
  induction f1 with
  | zero =>
      intro p prev f2 h1 _
      have hp : p = [] := List.length_eq_zero.mp (by omega)
      subst hp
      cases f2 <;> rfl
  | succ f1 ih =>
      intro p prev f2 h1 h2
      cases p with
      | nil => cases f2 <;> rfl
      | cons a r =>
          cases f2 with
          | zero => simp at h2
          | succ f2 =>
              rw [cfbEncAux, cfbEncAux]
              · congr 1
                exact ih _ _ _
                  (by simp only [List.length_drop, List.length_cons] at *; omega)
                  (by simp only [List.length_drop, List.length_cons] at *; omega)
              · simp
              · simp

/-- Unfolding equation for `cfbEnc` on a non-empty plaintext. -/
theorem cfbEnc_cons {E : List Nat → List Nat} {prev p : List Nat}
    (hp : p ≠ []) :
    cfbEnc E prev p = xorBytes (p.take 16) (E prev) ++
      cfbEnc E (xorBytes (p.take 16) (E prev)) (p.drop 16) := by
  cases p with
  | nil => exact absurd rfl hp
  | cons a r =>
      rw [cfbEnc, cfbEnc]
      rw [List.length_cons, cfbEncAux]
      · congr 1
        exact cfbEncAux_fuelIrrel _ _ _ _
          (by simp only [List.length_drop, List.length_cons]; omega)
          le_rfl
      · simp

theorem cfbDecAux_fuelIrrel {E : List Nat → List Nat} :
    ∀ f1 ct prev f2, ct.length ≤ f1 → ct.length ≤ f2 →
      cfbDecAux E f1 prev ct = cfbDecAux E f2 prev ct := by
  intro f1
  induction f1 with
  | zero =>
      intro ct prev f2 h1 _
      have hp : ct = [] := List.length_eq_zero.mp (by omega)
      subst hp
      cases f2 <;> rfl
  | succ f1 ih =>
      intro ct prev f2 h1 h2
      cases ct with
      | nil => cases f2 <;> rfl
      | cons a r =>
          cases f2 with
          | zero => simp at h2
          | succ f2 =>
              rw [cfbDecAux, cfbDecAux]
              · congr 1
                exact ih _ _ _
                  (by simp only [List.length_drop, List.length_cons] at *; omega)
                  (by simp only [List.length_drop, List.length_cons] at *; omega)
              · simp
              · simp

/-- Unfolding equation for `cfbDec` on a non-empty ciphertext. -/
theorem cfbDec_cons {E : List Nat → List Nat} {prev ct : List Nat}
    (hc : ct ≠ []) :
    cfbDec E prev ct = xorBytes (ct.take 16) (E prev) ++
      cfbDec E (ct.take 16) (ct.drop 16) := by
  cases ct with
  | nil => exact absurd rfl hc
  | cons a r =>
      rw [cfbDec, cfbDec]
      rw [List.length_cons, cfbDecAux]
      · congr 1
        exact cfbDecAux_fuelIrrel _ _ _ _
          (by simp only [List.length_drop, List.length_cons]; omega)
          le_rfl
      · simp

/-- Embedding of `CFBCipher.Encrypt`, with the random IV drawn by `io.ReadFull` passed
explicitly: output is the IV followed by the keystream-XORed value. -/
def Encrypt (E : List Nat → List Nat) (iv value : List Nat) : CipherResult :=
  .ok (iv ++ cfbEnc E iv value)

/-- Embedding of `CFBCipher.Decrypt`: reject inputs shorter than the block size, split
off the IV, and XOR the rest against the keystream. -/
def Decrypt (E : List Nat → List Nat) (ciphertext : List Nat) :
    CipherResult :=
  if ciphertext.length < 16 then .err (.cfbTooShort ciphertext.length)
  else .ok (cfbDec E (ciphertext.take 16) (ciphertext.drop 16))

/-- Embedding of `CFBCipher.EncryptInto`, promoted from the embedded `DefaultCipher`
(see `Base64Cipher.EncryptInto`): no virtual dispatch, hence the identity
transform and no randomness. -/
def EncryptInto (s : Option (List Nat)) : IntoResult :=
  into DefaultCipher.Encrypt s

/-- Embedding of `CFBCipher.DecryptInto`, promoted from the embedded `DefaultCipher`. -/
def DecryptInto (s : Option (List Nat)) : IntoResult :=
  into DefaultCipher.Decrypt s

end CFBCipher

namespace GCMCipher

/-- Big-endian value of a byte list as one natural number. -/
def bytesToNat (l : List Nat) : Nat :=
  l.foldl (fun acc b => acc * 256 + b) 0

/-- The GCM reduction constant `R = 0xe1` followed by 15 zero bytes. -/
def gcmR : Nat := 299076299051606071403356588563077529600

/-- Multiplication in GF(2^128) with the GCM bit order. -/
def gfMul (x y : Nat) : Nat :=
  ((List.range 128).foldl
    (fun zv i =>
      let z := if x.testBit (127 - i) then zv.1 ^^^ zv.2 else zv.1
      let v := if zv.2 % 2 = 1 then zv.2 / 2 ^^^ gcmR else zv.2 / 2
      (z, v))
    (0, y)).1

/-- GHASH over 128-bit blocks given the hash subkey `H`. -/
def ghashBlocks (H : Nat) (blocks : List Nat) : Nat :=
  blocks.foldl (fun y x => gfMul (y ^^^ x) H) 0

/-- Fuel-recursive core of `toBlocks` (the wrapper passes the length as
fuel, which always suffices). -/
def toBlocksAux : Nat → List Nat → List Nat
  | _, [] => []
  | 0, _ :: _ => []
  | fuel + 1, l =>
      bytesToNat (l.take 16 ++ List.replicate (16 - (l.take 16).length) 0) ::
      toBlocksAux fuel (l.drop 16)

/-- Split a byte sequence into 128-bit block values, zero-padding the final
partial block on the right. -/
def toBlocks (l : List Nat) : List Nat := toBlocksAux l.length l

/-- The pre-counter block `J0` for the standard 12-byte nonce. -/
def j0 (nonce : List Nat) : Nat := bytesToNat nonce * 2 ^ 32 + 1

/-- Embedding of `inc32`: increment the low 32 bits of a counter block. -/
def inc32 (x : Nat) : Nat := x / 2 ^ 32 * 2 ^ 32 + (x % 2 ^ 32 + 1) % 2 ^ 32

/-- Keystream of `n` counter-mode blocks starting at counter block `icb`. -/
def ctrBlocks (E : List Nat → List Nat) (icb : Nat) : Nat → List Nat
  | 0 => []
  | n + 1 => E (natToBytesBE 16 icb) ++ ctrBlocks E (inc32 icb) n

/-- The GCTR function: XOR the data with the counter-mode keystream. -/
def gctr (E : List Nat → List Nat) (icb : Nat) (x : List Nat) : List Nat :=
  xorBytes x (ctrBlocks E icb ((x.length + 15) / 16))

/-- The GCM authentication tag over ciphertext `c` (no additional data):
`E(J0) XOR GHASH_H(pad(c) ‖ len64(A)=0 ‖ len64(c))`. -/
def gcmTag (E : List Nat → List Nat) (nonce c : List Nat) : List Nat :=
  let H := bytesToNat (E (List.replicate 16 0))
  let s := ghashBlocks H (toBlocks c ++ [c.length * 8])
  xorBytes (E (natToBytesBE 16 (j0 nonce))) (natToBytesBE 16 s)

/-- Embedding of `gcm.Seal(nonce, nonce, value, nil)` for a 12-byte nonce: the nonce,
the counter-mode ciphertext, then the 16-byte tag.  `Seal` panics on
plaintexts longer than GCM can bind. -/
def gcmSeal (E : List Nat → List Nat) (nonce value : List Nat) : List Nat :=
  let c := gctr E (inc32 (j0 nonce)) value
  nonce ++ c ++ gcmTag E nonce c

/-- Embedding of `GCMCipher.Encrypt`: construct GCM over the block (always succeeds for an AES
block, whose size is 16), draw the 12-byte nonce (passed explicitly), and
seal.  `Seal` panics on a plaintext longer than `(2^32 - 2) * 16` bytes. -/
def Encrypt (E : List Nat → List Nat) (nonce value : List Nat) :
    CipherResult :=
  if value.length > (2 ^ 32 - 2) * 16 then .panics
  else .ok (gcmSeal E nonce value)

/-- Embedding of `gcm.Open(nil, nonce, ciphertext, nil)`: reject over-long or
shorter-than-tag inputs, recompute the tag over the ciphertext part and
compare, then counter-mode decrypt. -/
def gcmOpen (E : List Nat → List Nat) (nonce ct : List Nat) :
    Option (List Nat) :=
  if ct.length > (2 ^ 32 - 2) * 16 + 16 then none
  else if ct.length < 16 then none
  else
    let c := ct.take (ct.length - 16)
    let tag := ct.drop (ct.length - 16)
    if tag = gcmTag E nonce c then some (gctr E (inc32 (j0 nonce)) c)
    else none

/-- Embedding of `GCMCipher.Decrypt`: split `ciphertext[:nonceSize]` and
`ciphertext[nonceSize:]` — which panics when the input is shorter than the
nonce size, there is no length guard — then open. -/
def Decrypt (E : List Nat → List Nat) (ciphertext : List Nat) :
    CipherResult :=
  match goSlice ciphertext 0 12, goSlice ciphertext 12 ciphertext.length with
  | some nonce, some rest =>
      match gcmOpen E nonce rest with
      | some plaintext => .ok plaintext
      | none => .err .gcmOpen
  | _, _ => .panics

/-- Embedding of `GCMCipher.EncryptInto`, promoted from the embedded `DefaultCipher`
(see `Base64Cipher.EncryptInto`). -/
def EncryptInto (s : Option (List Nat)) : IntoResult :=
  into DefaultCipher.Encrypt s

/-- Embedding of `GCMCipher.DecryptInto`, promoted from the embedded `DefaultCipher`. -/
def DecryptInto (s : Option (List Nat)) : IntoResult :=
  into DefaultCipher.Decrypt s

end GCMCipher

/-! ## Cipher round-trip lemmas -/

/-- A 16-byte-block cipher function with byte-valued output, the shape of
`aes.NewCipher(secret).Encrypt` for any valid key. -/
structure IsBlockCipher (E : List Nat → List Nat) : Prop where
  len : ∀ b, (E b).length = 16
  bytes : ∀ b, IsBytes (E b)

theorem cfbDec_cfbEnc {E : List Nat → List Nat} (hE : ∀ b, (E b).length = 16) :
    ∀ n p prev, p.length ≤ n →
      CFBCipher.cfbDec E prev (CFBCipher.cfbEnc E prev p) = p := by
  intro n
  induction n with
  | zero =>
      intro p prev hlen
      have hp : p = [] := List.length_eq_zero.mp (by omega)
      subst hp
      rfl
  | succ n ih =>
      intro p prev hlen
      by_cases hp : p = []
      · subst hp
        rfl
      · rw [CFBCipher.cfbEnc_cons hp]
        have hp1 : 1 ≤ p.length := by
          cases p with
          | nil => exact absurd rfl hp
          | cons a r => simp
        have hclen : (xorBytes (p.take 16) (E prev)).length = min p.length 16 := by
          rw [xorBytes_length, List.length_take, hE prev]
          omega
        by_cases hsmall : p.length ≤ 16
        · have htake : p.take 16 = p := List.take_of_length_le hsmall
          have hdrop : p.drop 16 = [] := List.drop_eq_nil_of_le hsmall
          rw [htake, hdrop,
            show CFBCipher.cfbEnc E (xorBytes p (E prev)) [] = [] from rfl,
            List.append_nil]
          have hcne : xorBytes p (E prev) ≠ [] := by
            intro hcontra
            have hlen0 := congrArg List.length hcontra
            rw [xorBytes_length, hE prev, List.length_nil] at hlen0
            omega
          rw [CFBCipher.cfbDec_cons hcne]
          have hclen2 : (xorBytes p (E prev)).length = p.length := by
            rw [xorBytes_length, hE prev]; omega
          have htake2 : (xorBytes p (E prev)).take 16 = xorBytes p (E prev) :=
            List.take_of_length_le (by omega)
          have hdrop2 : (xorBytes p (E prev)).drop 16 = [] :=
            List.drop_eq_nil_of_le (by omega)
          rw [htake2, hdrop2,
            show CFBCipher.cfbDec E (xorBytes p (E prev)) [] = [] from rfl,
            List.append_nil]
          exact xorBytes_xorBytes_cancel p (E prev) (by rw [hE prev]; omega)
        · have hc16 : (xorBytes (p.take 16) (E prev)).length = 16 := by omega
          have htake : (xorBytes (p.take 16) (E prev) ++
              CFBCipher.cfbEnc E (xorBytes (p.take 16) (E prev)) (p.drop 16)).take 16
              = xorBytes (p.take 16) (E prev) := List.take_left' hc16
          have hdrop : (xorBytes (p.take 16) (E prev) ++
              CFBCipher.cfbEnc E (xorBytes (p.take 16) (E prev)) (p.drop 16)).drop 16
              = CFBCipher.cfbEnc E (xorBytes (p.take 16) (E prev)) (p.drop 16) :=
            List.drop_left' hc16
          have hne : xorBytes (p.take 16) (E prev) ++
              CFBCipher.cfbEnc E (xorBytes (p.take 16) (E prev)) (p.drop 16) ≠ [] := by
            intro hcontra
            have := congrArg List.length hcontra
            simp only [List.length_append, List.length_nil] at this
            omega
          rw [CFBCipher.cfbDec_cons hne, htake, hdrop]
          have hcancel : xorBytes (xorBytes (p.take 16) (E prev)) (E prev) = p.take 16 :=
            xorBytes_xorBytes_cancel _ _ (by rw [List.length_take, hE prev]; omega)
          rw [hcancel, ih (p.drop 16) (xorBytes (p.take 16) (E prev))
            (by rw [List.length_drop]; omega)]
          exact List.take_append_drop 16 p

/-- CFB keystream output stays byte-valued. -/
theorem cfbEnc_isBytes {E : List Nat → List Nat} (hE : ∀ b, IsBytes (E b)) :
    ∀ n p prev, p.length ≤ n → IsBytes p →
      IsBytes (CFBCipher.cfbEnc E prev p) := by
  intro n
  induction n with
  | zero =>
      intro p prev hlen _
      have hp : p = [] := List.length_eq_zero.mp (by omega)
      subst hp
      intro b hb
      rw [show CFBCipher.cfbEnc E prev [] = [] from rfl] at hb
      simp at hb
  | succ n ih =>
      intro p prev hlen hpb
      by_cases hp : p = []
      · subst hp
        intro b hb
        rw [show CFBCipher.cfbEnc E prev [] = [] from rfl] at hb
        simp at hb
      · rw [CFBCipher.cfbEnc_cons hp]
        have hp1 : 1 ≤ p.length := by
          cases p with
          | nil => exact absurd rfl hp
          | cons a r => simp
        intro b hb
        rw [List.mem_append] at hb
        rcases hb with hb | hb
        · exact xorBytes_isBytes
            (fun x hx => hpb x (List.mem_of_mem_take hx)) (hE prev) b hb
        · exact ih (p.drop 16) _ (by rw [List.length_drop]; omega)
            (fun x hx => hpb x (List.mem_of_mem_drop hx)) b hb

theorem ctrBlocks_length {E : List Nat → List Nat}
    (hE : ∀ b, (E b).length = 16) :
    ∀ n icb, (GCMCipher.ctrBlocks E icb n).length = 16 * n := by
  intro n
  induction n with
  | zero => intro icb; simp [GCMCipher.ctrBlocks]
  | succ n ih =>
      intro icb
      rw [GCMCipher.ctrBlocks, List.length_append, hE, ih]
      omega

theorem ctrBlocks_isBytes {E : List Nat → List Nat}
    (hE : ∀ b, IsBytes (E b)) :
    ∀ n icb, IsBytes (GCMCipher.ctrBlocks E icb n) := by
  intro n
  induction n with
  | zero => intro icb b hb; simp [GCMCipher.ctrBlocks] at hb
  | succ n ih =>
      intro icb b hb
      rw [GCMCipher.ctrBlocks, List.mem_append] at hb
      rcases hb with hb | hb
      · exact hE _ b hb
      · exact ih _ b hb

theorem natToBytesBE_isBytes (n x : Nat) : IsBytes (natToBytesBE n x) := by
  intro b hb
  rw [natToBytesBE, List.mem_map] at hb
  obtain ⟨i, _, hi⟩ := hb
  omega

theorem natToBytesBE_length (n x : Nat) : (natToBytesBE n x).length = n := by
  simp [natToBytesBE]

theorem gctr_length {E : List Nat → List Nat} (hE : ∀ b, (E b).length = 16)
    (icb : Nat) (x : List Nat) : (GCMCipher.gctr E icb x).length = x.length := by
  rw [GCMCipher.gctr, xorBytes_length, ctrBlocks_length hE]
  omega

theorem gctr_gctr_cancel {E : List Nat → List Nat}
    (hE : ∀ b, (E b).length = 16) (icb : Nat) (x : List Nat) :
    GCMCipher.gctr E icb (GCMCipher.gctr E icb x) = x := by
  have hlen : (GCMCipher.gctr E icb x).length = x.length := gctr_length hE icb x
  rw [GCMCipher.gctr, hlen]
  rw [GCMCipher.gctr]
  exact xorBytes_xorBytes_cancel x _ (by rw [ctrBlocks_length hE]; omega)

theorem gcmTag_length {E : List Nat → List Nat}
    (hE : ∀ b, (E b).length = 16) (nonce c : List Nat) :
    (GCMCipher.gcmTag E nonce c).length = 16 := by
  rw [GCMCipher.gcmTag, xorBytes_length, hE, natToBytesBE_length]
  simp

theorem goSliceFront {n : Nat} {a : List Nat} (b : List Nat)
    (h : a.length = n) : goSlice (a ++ b) 0 n = some a := by
  have hcond : 0 ≤ n ∧ n ≤ (a ++ b).length := by
    refine ⟨by omega, ?_⟩
    rw [List.length_append]; omega
  rw [goSlice, if_pos hcond, List.drop_zero, List.take_left' h]

theorem goSliceBack {n : Nat} {a b : List Nat} (h : a.length = n) :
    goSlice (a ++ b) n (a ++ b).length = some b := by
  have hcond : n ≤ (a ++ b).length ∧ (a ++ b).length ≤ (a ++ b).length := by
    refine ⟨?_, le_refl _⟩
    rw [List.length_append]; omega
  rw [goSlice, if_pos hcond, List.take_length, List.drop_left' h]

/-- GCM open inverts GCM seal for a 12-byte nonce and a plaintext GCM can
bind. -/
theorem gcmOpen_gcmSeal {E : List Nat → List Nat}
    (hE : ∀ b, (E b).length = 16) {nonce v : List Nat}
    (hvlen : v.length ≤ (2 ^ 32 - 2) * 16) :
    GCMCipher.gcmOpen E nonce
      (GCMCipher.gctr E (GCMCipher.inc32 (GCMCipher.j0 nonce)) v ++
       GCMCipher.gcmTag E nonce
         (GCMCipher.gctr E (GCMCipher.inc32 (GCMCipher.j0 nonce)) v))
      = some v := by
  have hclen : (GCMCipher.gctr E (GCMCipher.inc32 (GCMCipher.j0 nonce)) v).length
      = v.length := gctr_length hE _ _
  have htlen : (GCMCipher.gcmTag E nonce
      (GCMCipher.gctr E (GCMCipher.inc32 (GCMCipher.j0 nonce)) v)).length = 16 :=
    gcmTag_length hE _ _
  rw [GCMCipher.gcmOpen]
  rw [if_neg (by rw [List.length_append, htlen]; omega)]
  rw [if_neg (by rw [List.length_append, htlen]; omega)]
  have hsplit : (GCMCipher.gctr E (GCMCipher.inc32 (GCMCipher.j0 nonce)) v ++
      GCMCipher.gcmTag E nonce
        (GCMCipher.gctr E (GCMCipher.inc32 (GCMCipher.j0 nonce)) v)).length - 16
      = (GCMCipher.gctr E (GCMCipher.inc32 (GCMCipher.j0 nonce)) v).length := by
    rw [List.length_append, htlen]
    omega
  rw [hsplit, List.take_left, List.drop_left, if_pos rfl,
    gctr_gctr_cancel hE]

/-- The full `Decrypt(Encrypt(v))` round trip for the GCM cipher. -/
theorem gcm_roundtrip {E : List Nat → List Nat}
    (hE : ∀ b, (E b).length = 16) {nonce v : List Nat}
    (hn : nonce.length = 12) (hvlen : v.length ≤ (2 ^ 32 - 2) * 16) :
    GCMCipher.Decrypt E (GCMCipher.gcmSeal E nonce v) = .ok v := by
  rw [GCMCipher.Decrypt, GCMCipher.gcmSeal, List.append_assoc,
    goSliceFront _ hn, goSliceBack hn]
  dsimp only
  rw [gcmOpen_gcmSeal hE hvlen]

/-- The full `Decrypt(Encrypt(v))` round trip for the CFB cipher. -/
theorem cfb_roundtrip {E : List Nat → List Nat}
    (hE : ∀ b, (E b).length = 16) {iv : List Nat} (v : List Nat)
    (hiv : iv.length = 16) :
    CFBCipher.Decrypt E (iv ++ CFBCipher.cfbEnc E iv v) = .ok v := by
  rw [CFBCipher.Decrypt,
    if_neg (by rw [List.length_append]; omega),
    List.take_left' hiv, List.drop_left' hiv,
    cfbDec_cfbEnc hE v.length v iv le_rfl]

/-- The GCM seal output is byte-valued. -/
theorem gcmSeal_isBytes {E : List Nat → List Nat} (hE : ∀ b, IsBytes (E b))
    {nonce v : List Nat} (hnb : IsBytes nonce) (hv : IsBytes v) :
    IsBytes (GCMCipher.gcmSeal E nonce v) := by
  rw [GCMCipher.gcmSeal]
  intro b hb
  rw [List.mem_append, List.mem_append] at hb
  rcases hb with (hb | hb) | hb
  · exact hnb b hb
  · exact xorBytes_isBytes hv (ctrBlocks_isBytes hE _ _) b hb
  · rw [GCMCipher.gcmTag] at hb
    exact xorBytes_isBytes (hE _) (natToBytesBE_isBytes _ _) b hb

/-- The CFB ciphertext (IV included) is byte-valued. -/
theorem cfbCiphertext_isBytes {E : List Nat → List Nat}
    (hE : ∀ b, IsBytes (E b)) {iv v : List Nat} (hivb : IsBytes iv)
    (hv : IsBytes v) : IsBytes (iv ++ CFBCipher.cfbEnc E iv v) := by
  intro b hb
  rw [List.mem_append] at hb
  rcases hb with hb | hb
  · exact hivb b hb
  · exact cfbEnc_isBytes hE v.length v iv le_rfl hv b hb

/-- The base64 decorator preserves any inner round trip. -/
theorem base64Cipher_roundtrip {ienc idec : List Nat → CipherResult}
    {v ct : List Nat} (he : ienc v = .ok ct) (hb : IsBytes ct)
    (hd : idec ct = .ok v) :
    Base64Cipher.Encrypt ienc v = .ok (b64encodeStd ct) ∧
    Base64Cipher.Decrypt idec (b64encodeStd ct) = .ok v := by
  constructor
  · rw [Base64Cipher.Encrypt, he]
  · rw [Base64Cipher.Decrypt, b64decodeStd_b64encodeStd hb]
    dsimp only
    rw [hd]

/-! ## Envelope helper lemmas -/

/-- A canonical base64url encoding of bytes is `=` signs and url-alphabet
characters, so it never contains the separator `|` (124), a newline or a
carriage return. -/
theorem b64encodeUrl_no_pipe {l : List Nat} (hl : IsBytes l) :
    124 ∉ b64encodeUrl l := by
  intro hmem
  rcases mem_b64encode urlEncChar l hl 124 hmem with h | ⟨n, hn, h⟩
  · simp at h
  · revert h
    revert hn
    revert n
    decide

theorem intToDec_chars (n : Int) :
    ∀ c ∈ intToDec n, c = 45 ∨ (48 ≤ c ∧ c ≤ 57) := by
  intro c hc
  rw [intToDec] at hc
  split at hc
  · rcases List.mem_cons.mp hc with h | h
    · exact Or.inl h
    · exact Or.inr (natToDec_digits _ c h)
  · exact Or.inr (natToDec_digits _ c hc)

theorem intToDec_no_pipe (n : Int) : 124 ∉ intToDec n := by
  intro hmem
  rcases intToDec_chars n 124 hmem with h | h <;> omega

theorem intToDec_ne_nil (n : Int) : intToDec n ≠ [] := by
  rw [intToDec]
  split
  · simp
  · exact natToDec_ne_nil _

/-- Splitting a signed cookie value recovers exactly its three fields. -/
theorem strSplit_signedValue {seed key v : List Nat} (now : Int)
    (hv : IsBytes v) :
    strSplit 124 (SignedValue seed key v now) =
      [b64encodeUrl v, intToDec now,
       cookieSignature sha256 seed key (b64encodeUrl v) (intToDec now)] := by
  have hsig : (124 : Nat) ∉
      cookieSignature sha256 seed key (b64encodeUrl v) (intToDec now) := by
    rw [cookieSignature]
    exact b64encodeUrl_no_pipe (hmac_sha256_isBytes _ _)
  rw [SignedValue]
  rw [List.append_assoc, List.cons_append]
  rw [strSplit_append _ (b64encodeUrl_no_pipe hv),
    strSplit_append _ (intToDec_no_pipe now),
    strSplit_no_sep hsig]

/-- Lemma: `checkHmac` against the canonical encoding of a MAC holds exactly when
the candidate decodes to that MAC. -/
theorem checkHmac_canonical {mac : List Nat} (hb : IsBytes mac)
    (s : List Nat) :
    checkHmac s (b64encodeUrl mac) = true ↔ b64decodeUrl s = some mac := by
  rw [checkHmac, b64decodeUrl_b64encodeUrl hb]
  cases h : b64decodeUrl s with
  | none => simp
  | some a => simp [decide_eq_true_eq]

/-- A canonically signed value passes `checkSignature` (via SHA-256). -/
theorem checkSignature_canonical (seed key value ts : List Nat) :
    checkSignature (cookieSignature sha256 seed key value ts)
      seed key value ts = true := by
  rw [checkSignature, Bool.or_eq_true]
  left
  rw [cookieSignature, checkHmac_canonical (hmac_sha256_isBytes _ _)]
  exact b64decodeUrl_b64encodeUrl (hmac_sha256_isBytes _ _)

/-- A concrete 16-byte block function used to instantiate the block-cipher
parameter in concrete evaluations. -/
def zeroBlock : List Nat → List Nat := fun _ => List.replicate 16 0

/-! ## The claims -/

/-- C1, counterexample: for the cookie signed at `T = 1000` with empty
seed, name and value, the signature verifies and the timestamp parses, and
the claimed window `(now - expiration, now + 5 minutes]` contains `T` both
at `now = 700` (`T = now + 300`, the claimed closed upper bound) and at
`now = T + expiration = 4600` (where the claim text says the cookie
validates) — yet `Validate` returns `ok = false` at both instants, because
both of its comparisons are strict. -/
theorem claim1_counterexample :
    (Validate (SignedValue [] [] [] 1000) [] [] 3600 700).ok = false ∧
    ((700 : Int) - 3600 < 1000 ∧ (1000 : Int) ≤ 700 + 300) ∧
    (Validate (SignedValue [] [] [] 1000) [] [] 3600 4600).ok = false ∧
    ((4600 : Int) - 3600 < 1000 ∨ (1000 : Int) = 4600 - 3600) ∧
    checkSignature
      (cookieSignature sha256 [] [] (b64encodeUrl []) (intToDec 1000))
      [] [] (b64encodeUrl []) (intToDec 1000) = true ∧
    goAtoi (intToDec 1000) = some 1000 ∧
    strSplit 124 (SignedValue [] [] [] 1000) =
      [b64encodeUrl [], intToDec 1000,
       cookieSignature sha256 [] [] (b64encodeUrl []) (intToDec 1000)] :=
  ⟨by decide, by decide, by decide, by decide,
   checkSignature_canonical [] [] (b64encodeUrl []) (intToDec 1000),
   by decide, strSplit_signedValue 1000 (by decide)⟩

/-- C1 (amended): for every cookie that splits into three fields whose
signature verifies, whose timestamp parses as `T` (within the range
`time.Time` can represent without wrap-around), `Validate` accepts iff `T`
lies in the OPEN window `(now - expiration, now + 5 minutes)` — both
bounds strict, so a cookie signed at `T` validates at
`now = T + expiration - 1s` and at `now = T - 4min`, and fails at
`now = T + expiration` and at `now = T - 6min` — and the value field
base64-decodes. -/
theorem claim1_window_amended
    (cookieValue name seed v tsStr sig : List Nat)
    (expiration now T : Int)
    (hsplit : strSplit 124 cookieValue = [v, tsStr, sig])
    (hsig : checkSignature sig seed name v tsStr = true)
    (hts : goAtoi tsStr = some T)
    (hrep : T + unixToInternal < 2 ^ 63) :
    (Validate cookieValue name seed expiration now).ok = true ↔
      ((now - expiration < T ∧ T < now + 300) ∧
        (b64decodeUrl v).isSome) := by
  have hrange := goAtoi_range hts
  have hU : unixToInternal = 62135596800 := rfl
  have hw : wrap64 (T + unixToInternal) = T + unixToInternal :=
    wrap64_eq_self (by omega) hrep
  rw [Validate, hsplit]
  dsimp only
  rw [if_pos hsig, hts]
  dsimp only
  rw [hw]
  by_cases hwin : now + unixToInternal - expiration < T + unixToInternal ∧
      T + unixToInternal < now + unixToInternal + 300
  · rw [if_pos hwin]
    cases hdec : b64decodeUrl v with
    | some raw =>
        dsimp only
        simp only [Option.isSome_some, and_true]
        constructor
        · intro _
          omega
        · intro _
          trivial
    | none =>
        dsimp only
        simp only [Option.isSome_none, and_false]
        simp
  · rw [if_neg hwin]
    dsimp only
    constructor
    · intro hcontra
      simp at hcontra
    · intro hcontra
      exact absurd ⟨by omega, by omega⟩ hwin

/-- C1 witness: a canonical cookie signed at `T = 1000` evaluated at
`now = 1000` with a one-minute expiration. -/
theorem claim1_window_amended_witness :
    (Validate (SignedValue [] [] [] 1000) [] [] 60 1000).ok = true ↔
      (((1000 : Int) - 60 < 1000 ∧ (1000 : Int) < 1000 + 300) ∧
        (b64decodeUrl (b64encodeUrl [])).isSome) :=
  claim1_window_amended (SignedValue [] [] [] 1000) [] []
    (b64encodeUrl []) (intToDec 1000)
    (cookieSignature sha256 [] [] (b64encodeUrl []) (intToDec 1000))
    60 1000 1000
    (strSplit_signedValue 1000 (by decide))
    (checkSignature_canonical [] [] (b64encodeUrl []) (intToDec 1000))
    (by decide) (by decide)

/-- C2: the in-place operations of the non-default ciphers are the methods
promoted from the embedded `DefaultCipher`, whose receiver is that embedded
field — Go method promotion does not dispatch to the outer type — so
`Base64Cipher.EncryptInto` leaves the string bytes unchanged instead of
replacing them with `Base64Cipher`'s own `Encrypt` output: on the string
`abc` the in-place operation returns `abc` while the variant's `Encrypt`
returns `YWJj`. -/
theorem claim2_promoted_into_uses_default_encrypt :
    Base64Cipher.EncryptInto (some [97, 98, 99]) =
      .ret none (some [97, 98, 99]) ∧
    Base64Cipher.Encrypt DefaultCipher.Encrypt [97, 98, 99] =
      .ok [89, 87, 74, 106] ∧
    ([89, 87, 74, 106] : List Nat) ≠ [97, 98, 99] ∧
    Base64Cipher.DecryptInto (some [89, 87, 74, 106]) =
      .ret none (some [89, 87, 74, 106]) ∧
    Base64Cipher.Decrypt DefaultCipher.Decrypt [89, 87, 74, 106] =
      .ok [97, 98, 99] := by
  decide

/-- C3: `GCMCipher.Decrypt` slices `ciphertext[:nonceSize]` without any
length guard, so every input shorter than the 12-byte nonce size panics
with a slice-bounds error instead of returning a `DecryptionError`. -/
theorem claim3_gcm_truncation_panics :
    GCMCipher.Decrypt zeroBlock [] = .panics ∧
    GCMCipher.Decrypt zeroBlock [0] = .panics ∧
    GCMCipher.Decrypt zeroBlock
      [0, 1, 2, 3, 4, 5, 6, 7, 8, 9, 10] = .panics := by
  decide

/-- C4, counterexample: a cookie with a verifying signature and parseable
timestamp `1000` validated far outside the window returns `ok = false`
with the nil value, but with `t = time.Unix(1000, 0)` — the timestamp was
assigned to the named return before the window check — not the zero
`time.Time`. -/
theorem claim4_counterexample :
    Validate (SignedValue [] [] [] 1000) [] [] 3600 1000000 =
      ⟨none, some 1000, false⟩ ∧
    some (1000 : Int) ≠ (none : Option Int) :=
  ⟨by decide, by decide⟩

/-- C4 (amended): whenever any check fails, `Validate` does not panic (the
embedding is a total function) and returns `ok = false` with the nil
value; the returned time is the zero `time.Time` except when the failure
happened after the timestamp was parsed — in the window check or the value
decode — in which case it is the parsed timestamp. -/
theorem claim4_failure_outputs_amended (cookieValue name seed : List Nat)
    (expiration now : Int)
    (hok : (Validate cookieValue name seed expiration now).ok = false) :
    (Validate cookieValue name seed expiration now).value = none ∧
    ((Validate cookieValue name seed expiration now).t = none ∨
      ∃ v tsStr sig ts, strSplit 124 cookieValue = [v, tsStr, sig] ∧
        checkSignature sig seed name v tsStr = true ∧
        goAtoi tsStr = some ts ∧
        (Validate cookieValue name seed expiration now).t = some ts) := by
  rcases hs : strSplit 124 cookieValue with _ | ⟨v, _ | ⟨tsStr, _ | ⟨sig, _ | ⟨x, xs⟩⟩⟩⟩
  · rw [Validate, hs]; exact ⟨rfl, Or.inl rfl⟩
  · rw [Validate, hs]; exact ⟨rfl, Or.inl rfl⟩
  · rw [Validate, hs]; exact ⟨rfl, Or.inl rfl⟩
  · rw [Validate, hs] at hok ⊢
    dsimp only at hok ⊢
    by_cases hsig : checkSignature sig seed name v tsStr = true
    · rw [if_pos hsig] at hok ⊢
      cases hts : goAtoi tsStr with
      | none => exact ⟨rfl, Or.inl rfl⟩
      | some ts =>
          rw [hts] at hok
          dsimp only at hok ⊢
          by_cases hwin : now + unixToInternal - expiration <
              wrap64 (ts + unixToInternal) ∧
              wrap64 (ts + unixToInternal) < now + unixToInternal + 300
          · rw [if_pos hwin] at hok ⊢
            cases hdec : b64decodeUrl v with
            | some raw => rw [hdec] at hok; simp at hok
            | none =>
                exact ⟨rfl, Or.inr ⟨v, tsStr, sig, ts, rfl, hsig, hts, rfl⟩⟩
          · rw [if_neg hwin] at hok ⊢
            exact ⟨rfl, Or.inr ⟨v, tsStr, sig, ts, rfl, hsig, hts, rfl⟩⟩
    · rw [if_neg hsig] at hok ⊢
      exact ⟨rfl, Or.inl rfl⟩
  · rw [Validate, hs]; exact ⟨rfl, Or.inl rfl⟩

/-- C4 witness: the empty cookie string (one pipe-delimited field). -/
theorem claim4_failure_outputs_amended_witness :
    (Validate [] [] [] 0 0).value = none ∧
    ((Validate [] [] [] 0 0).t = none ∨
      ∃ v tsStr sig ts, strSplit 124 ([] : List Nat) = [v, tsStr, sig] ∧
        checkSignature sig [] [] v tsStr = true ∧
        goAtoi tsStr = some ts ∧
        (Validate [] [] [] 0 0).t = some ts) :=
  claim4_failure_outputs_amended [] [] [] 0 0 (by decide)

/-- C5, counterexample: with `expiration = 0` the claimed trivial window
condition `0 ≤ now - now ≤ expiration` holds, yet validating a just-signed
cookie fails, because the lower window bound is strict
(`t.After(now.Add(-0))` is false at `t = now`). -/
theorem claim5_counterexample :
    Validate (SignedValue [] [] [] 0) [] [] 0 0 = ⟨none, some 0, false⟩ ∧
    ((0 : Int) ≤ 0 - 0 ∧ (0 : Int) - 0 ≤ 0) :=
  ⟨by decide, by decide⟩

/-- C5 (amended): for every byte value `v`, name, seed, and whole-second
`now` representable by `time.Time` without wrap-around, validating an
envelope produced by `Sign` with the same seed and name returns exactly
`v`, the creation instant, and `ok = true`, whenever the expiration is
positive (the strict lower window bound rejects `expiration = 0`). -/
theorem claim5_roundtrip_amended (seed name v : List Nat)
    (now expiration : Int) (hv : IsBytes v) (hexp : 0 < expiration)
    (hn1 : -(2 ^ 63) ≤ now) (hn2 : now + unixToInternal < 2 ^ 63) :
    Validate (SignedValue seed name v now) name seed expiration now =
      ⟨some v, some now, true⟩ := by
  have hU : unixToInternal = 62135596800 := rfl
  rw [Validate, strSplit_signedValue now hv]
  dsimp only
  rw [if_pos (checkSignature_canonical seed name (b64encodeUrl v) (intToDec now))]
  rw [goAtoi_intToDec hn1 (by omega)]
  dsimp only
  rw [wrap64_eq_self (by omega) hn2]
  rw [if_pos ⟨by omega, by omega⟩]
  rw [b64decodeUrl_b64encodeUrl hv]

/-- C5 witness: a two-byte value signed and validated at `now = 1000` with
a one-minute expiration. -/
theorem claim5_roundtrip_amended_witness :
    Validate (SignedValue [1] [2] [5, 6] 1000) [2] [1] 60 1000 =
      ⟨some [5, 6], some 1000, true⟩ :=
  claim5_roundtrip_amended [1] [2] [5, 6] 1000 60 (by decide) (by decide)
    (by decide) (by decide)

/-- C6: for every 16-byte block cipher `E` (the encryption function of
`aes.NewCipher` under any valid key), every IV and nonce the encryptor
could draw, and every byte payload `v` (within the size GCM can bind),
`Decrypt(Encrypt(v)) = v` holds for the AES-CFB cipher, the AES-GCM
cipher, and the base64 decorator wrapped over each of them. -/
theorem claim6_cipher_roundtrips (E : List Nat → List Nat)
    (hE : IsBlockCipher E) (iv nonce v : List Nat)
    (hiv : iv.length = 16) (hivb : IsBytes iv)
    (hn : nonce.length = 12) (hnb : IsBytes nonce)
    (hv : IsBytes v) (hvlen : v.length ≤ (2 ^ 32 - 2) * 16) :
    (∀ ct, CFBCipher.Encrypt E iv v = .ok ct →
      CFBCipher.Decrypt E ct = .ok v) ∧
    (∀ ct, GCMCipher.Encrypt E nonce v = .ok ct →
      GCMCipher.Decrypt E ct = .ok v) ∧
    (∀ ct, Base64Cipher.Encrypt (CFBCipher.Encrypt E iv) v = .ok ct →
      Base64Cipher.Decrypt (CFBCipher.Decrypt E) ct = .ok v) ∧
    (∀ ct, Base64Cipher.Encrypt (GCMCipher.Encrypt E nonce) v = .ok ct →
      Base64Cipher.Decrypt (GCMCipher.Decrypt E) ct = .ok v) := by
  have hcfb : CFBCipher.Decrypt E (iv ++ CFBCipher.cfbEnc E iv v) = .ok v :=
    cfb_roundtrip hE.len v hiv
  have hgcm : GCMCipher.Decrypt E (GCMCipher.gcmSeal E nonce v) = .ok v :=
    gcm_roundtrip hE.len hn hvlen
  have hgcmEnc : GCMCipher.Encrypt E nonce v =
      .ok (GCMCipher.gcmSeal E nonce v) := by
    rw [GCMCipher.Encrypt, if_neg (by omega)]
  refine ⟨?_, ?_, ?_, ?_⟩
  · intro ct hct
    rw [CFBCipher.Encrypt, CipherResult.ok.injEq] at hct
    rw [← hct]
    exact hcfb
  · intro ct hct
    rw [hgcmEnc, CipherResult.ok.injEq] at hct
    rw [← hct]
    exact hgcm
  · intro ct hct
    obtain ⟨henc, hdec⟩ := base64Cipher_roundtrip
      (show CFBCipher.Encrypt E iv v =
        .ok (iv ++ CFBCipher.cfbEnc E iv v) from rfl)
      (cfbCiphertext_isBytes hE.bytes hivb hv) hcfb
    rw [henc, CipherResult.ok.injEq] at hct
    rw [← hct]
    exact hdec
  · intro ct hct
    obtain ⟨henc, hdec⟩ := base64Cipher_roundtrip hgcmEnc
      (gcmSeal_isBytes hE.bytes hnb hv) hgcm
    rw [henc, CipherResult.ok.injEq] at hct
    rw [← hct]
    exact hdec

/-- C6 witness: the round trips on a three-byte payload under a concrete
block function, IV and nonce. -/
theorem claim6_cipher_roundtrips_witness :
    CFBCipher.Decrypt zeroBlock
      (List.range 16 ++ CFBCipher.cfbEnc zeroBlock (List.range 16)
        [10, 200, 33]) = .ok [10, 200, 33] ∧
    GCMCipher.Decrypt zeroBlock
      (GCMCipher.gcmSeal zeroBlock (List.range 12) [10, 200, 33]) =
      .ok [10, 200, 33] ∧
    Base64Cipher.Decrypt (CFBCipher.Decrypt zeroBlock)
      (b64encodeStd (List.range 16 ++ CFBCipher.cfbEnc zeroBlock
        (List.range 16) [10, 200, 33])) = .ok [10, 200, 33] ∧
    Base64Cipher.Decrypt (GCMCipher.Decrypt zeroBlock)
      (b64encodeStd (GCMCipher.gcmSeal zeroBlock (List.range 12)
        [10, 200, 33])) = .ok [10, 200, 33] := by
  have h := claim6_cipher_roundtrips zeroBlock
    ⟨fun b => by simp [zeroBlock],
     fun b x hx => by rw [zeroBlock] at hx; rw [List.eq_of_mem_replicate hx]; omega⟩
    (List.range 16) (List.range 12) [10, 200, 33]
    (by simp) (by decide) (by simp) (by decide) (by decide) (by decide)
  exact ⟨h.1 _ rfl, h.2.1 _ (by decide), h.2.2.1 _ (by decide),
    h.2.2.2 _ (by decide)⟩

/-- C7: `SecretBytes` is total and deterministic; when the secret, after
trailing `=` trimming, is valid URL-safe base64 decoding to exactly 16, 24
or 32 bytes the result is those bytes, and in every other case (decode
failure or any other decoded length) it is the raw bytes of the secret
itself. -/
theorem claim7_secretBytes_spec (s : List Nat) :
    (∀ b, b64decodeRawUrl (trimRightEq s) = some b →
      ((b.length = 16 ∨ b.length = 24 ∨ b.length = 32) →
        SecretBytes s = b) ∧
      (¬(b.length = 16 ∨ b.length = 24 ∨ b.length = 32) →
        SecretBytes s = s)) ∧
    (b64decodeRawUrl (trimRightEq s) = none → SecretBytes s = s) := by
  constructor
  · intro b hb
    constructor
    · intro hlen
      rw [SecretBytes, hb]
      dsimp only
      rw [if_pos hlen]
    · intro hlen
      rw [SecretBytes, hb]
      dsimp only
      rw [if_neg hlen]
  · intro hnone
    rw [SecretBytes, hnone]

/-- C7 witness: a 22-character base64url secret (22 `A`s) decodes to 16
zero bytes and becomes the key; a 2-character secret decodes to one byte,
an invalid AES length, so the raw bytes are kept. -/
theorem claim7_secretBytes_spec_witness :
    SecretBytes (List.replicate 22 65) = List.replicate 16 0 ∧
    SecretBytes [65, 65] = [65, 65] :=
  ⟨((claim7_secretBytes_spec (List.replicate 22 65)).1
      (List.replicate 16 0) (by decide)).1 (by decide),
   ((claim7_secretBytes_spec [65, 65]).1 [0] (by decide)).2 (by decide)⟩

/-- C8: `checkSignature` accepts a candidate signature exactly when it
base64url-decodes to the HMAC-SHA256 of the key, value and timestamp under
the seed, or, failing that, to the HMAC-SHA1 of the same key/message
construction (SHA-256 is tried first in the source; the two attempts are
an inclusive disjunction extensionally). -/
theorem claim8_checkSignature_iff (sig seed name value ts : List Nat) :
    checkSignature sig seed name value ts = true ↔
      (b64decodeUrl sig = some (hmac sha256 seed (name ++ value ++ ts)) ∨
       b64decodeUrl sig = some (hmac sha1 seed (name ++ value ++ ts))) := by
  rw [checkSignature, Bool.or_eq_true, cookieSignature, cookieSignature,
    checkHmac_canonical (hmac_sha256_isBytes _ _),
    checkHmac_canonical (hmac_sha1_isBytes _ _)]

/-- C9: for every cipher variant, `EncryptInto` and `DecryptInto` on a nil
string pointer or a pointer to the empty string leave the string unchanged
and return success. -/
theorem claim9_into_empty_noop (s : Option (List Nat))
    (h : s = none ∨ s = some []) :
    DefaultCipher.EncryptInto s = .ret none s ∧
    DefaultCipher.DecryptInto s = .ret none s ∧
    Base64Cipher.EncryptInto s = .ret none s ∧
    Base64Cipher.DecryptInto s = .ret none s ∧
    CFBCipher.EncryptInto s = .ret none s ∧
    CFBCipher.DecryptInto s = .ret none s ∧
    GCMCipher.EncryptInto s = .ret none s ∧
    GCMCipher.DecryptInto s = .ret none s := by
  rcases h with h | h <;> subst h <;>
    exact ⟨rfl, rfl, rfl, rfl, rfl, rfl, rfl, rfl⟩

/-- C9 witness: the nil pointer and the empty string. -/
theorem claim9_into_empty_noop_witness :
    (DefaultCipher.EncryptInto none = .ret none none ∧
     DefaultCipher.DecryptInto none = .ret none none ∧
     Base64Cipher.EncryptInto none = .ret none none ∧
     Base64Cipher.DecryptInto none = .ret none none ∧
     CFBCipher.EncryptInto none = .ret none none ∧
     CFBCipher.DecryptInto none = .ret none none ∧
     GCMCipher.EncryptInto none = .ret none none ∧
     GCMCipher.DecryptInto none = .ret none none) ∧
    DefaultCipher.EncryptInto (some []) = .ret none (some []) :=
  ⟨claim9_into_empty_noop none (Or.inl rfl),
   (claim9_into_empty_noop (some []) (Or.inr rfl)).1⟩

/-- C10: `into` — the shared body of every variant's `EncryptInto` and
`DecryptInto` — is atomic on failure: on a non-nil, non-empty string, if
the transform returns an error, the pointed-to string is unchanged and
that same error is returned. -/
theorem claim10_into_error_atomic (f : List Nat → CipherResult)
    (v : List Nat) (e : GoErr) (hv : v ≠ []) (hf : f v = .err e) :
    into f (some v) = .ret (some e) (some v) := by
  rw [into, if_neg hv, hf]

/-- C10 witness: a transform that always fails leaves a one-byte string
untouched and propagates its error. -/
theorem claim10_into_error_atomic_witness :
    into (fun _ => .err .b64Decode) (some [1]) =
      .ret (some .b64Decode) (some [1]) :=
  claim10_into_error_atomic (fun _ => .err .b64Decode) [1] .b64Decode
    (by decide) rfl

end OAuth2Proxy
